import Mathlib

/-!
# Verification of the voxel-mesher repository

Shallow embedding of `src/lib.rs` (crate `voxel-mesher`).

Modelling conventions:
* `f32` geometry arithmetic is modelled by exact rationals (`ℚ`); every float
  operation performed by the mesher (negation, addition, subtraction,
  component-wise multiplication, division by a dimension, the literal `0.1`)
  is mapped to the corresponding exact `ℚ` operation.
* `u32` colour values carry no arithmetic, only comparisons with `0` and with
  each other, so they are modelled as `ℕ`.
* Rust slice/`Vec` indexing panics when out of bounds.  Every indexing
  operation of the source is modelled by a checked access returning `Option`;
  a `none` result of the mesher models a runtime panic.  The `assert_eq!`
  precondition check of `greedy_mesh` is modelled by the same `none`.
* The byte codec (`VoxelMesh::encode` / `VoxelMesh::decode`) moves the raw
  bit patterns of `f32` coordinates; on that side a coordinate is modelled as
  its opaque 32-bit word (a `ℕ` below `2^32`), and bytes are `ℕ` below `256`.
-/

/-- `glam::IVec3`: a vector of three signed integers. -/
structure V3 where
  x : ℤ
  y : ℤ
  z : ℤ
deriving DecidableEq

/-- `glam::Vec3` (an `f32` vector), modelled with exact rational components. -/
structure Q3 where
  x : ℚ
  y : ℚ
  z : ℚ
deriving DecidableEq

/-- `glam::USizeVec3`: the grid dimensions. -/
structure D3 where
  x : ℕ
  y : ℕ
  z : ℕ
deriving DecidableEq

/-- `IVec3::ZERO`. -/
def V3.zero : V3 := ⟨0, 0, 0⟩

/-- Indexing `v[a]` of `glam` vectors by axis number (only axes 0,1,2 are used). -/
def V3.get (v : V3) (a : ℕ) : ℤ :=
  if a = 0 then v.x else if a = 1 then v.y else v.z

/-- Component assignment `v[a] = w`. -/
def V3.set (v : V3) (a : ℕ) (w : ℤ) : V3 :=
  if a = 0 then { v with x := w } else if a = 1 then { v with y := w } else { v with z := w }

/-- `USizeVec3` component by axis number. -/
def D3.get (d : D3) (a : ℕ) : ℕ :=
  if a = 0 then d.x else if a = 1 then d.y else d.z

/-- `dims.as_ivec3()`. -/
def D3.as_ivec3 (d : D3) : V3 := ⟨d.x, d.y, d.z⟩

/-- `dims.as_vec3()`. -/
def D3.as_vec3 (d : D3) : Q3 := ⟨d.x, d.y, d.z⟩

/-- `x.as_vec3()` for an `IVec3`. -/
def V3.as_vec3 (v : V3) : Q3 := ⟨v.x, v.y, v.z⟩

instance : Add Q3 := ⟨fun a b => ⟨a.x + b.x, a.y + b.y, a.z + b.z⟩⟩

instance : Sub Q3 := ⟨fun a b => ⟨a.x - b.x, a.y - b.y, a.z - b.z⟩⟩

/-- Component-wise product, as `glam`'s `Vec3 * Vec3`. -/
instance : Mul Q3 := ⟨fun a b => ⟨a.x * b.x, a.y * b.y, a.z * b.z⟩⟩

/-- `Vec3 * f32` scalar product. -/
def Q3.scale (a : Q3) (s : ℚ) : Q3 := ⟨a.x * s, a.y * s, a.z * s⟩

/-- `Vec3::new(v.z, v.y, v.x)`: the x/z swap applied by the mesher when `d == 1`. -/
def Q3.zyx (a : Q3) : Q3 := ⟨a.z, a.y, a.x⟩

theorem Q3.add_def (a b : Q3) : a + b = ⟨a.x + b.x, a.y + b.y, a.z + b.z⟩ := rfl

theorem Q3.sub_def (a b : Q3) : a - b = ⟨a.x - b.x, a.y - b.y, a.z - b.z⟩ := rfl

theorem Q3.mul_def (a b : Q3) : a * b = ⟨a.x * b.x, a.y * b.y, a.z * b.z⟩ := rfl

/-- `Vertex` of `lib.rs` as used by the mesher: an exact-rational position and
a packed colour. -/
structure Vertex where
  position : Q3
  rgba : ℕ
deriving DecidableEq

/-- `Vertex::new`. -/
def Vertex.new (position : Q3) (colour : ℕ) : Vertex := ⟨position, colour⟩

/-- `Quad` of `lib.rs`: a colour and four corners (`[Vec3; 4]`). -/
structure Quad where
  colour : ℕ
  corners : Q3 × Q3 × Q3 × Q3
deriving DecidableEq

/-- `draw_quad` of `lib.rs`: push the four corners as vertices carrying the
quad's colour, then extend the index buffer with `[k, k+1, k+2, k+2, k+3, k]`
where `k` is the vertex-buffer length before the pushes. -/
def draw_quad (verticies : List Vertex) (indicies : List ℕ) (quad : Quad) :
    List Vertex × List ℕ :=
  let k := verticies.length
  let verticies := verticies ++ [Vertex.new quad.corners.1 quad.colour]
  let verticies := verticies ++ [Vertex.new quad.corners.2.1 quad.colour]
  let verticies := verticies ++ [Vertex.new quad.corners.2.2.1 quad.colour]
  let verticies := verticies ++ [Vertex.new quad.corners.2.2.2 quad.colour]
  (verticies, indicies ++ [k, k + 1, k + 2, k + 2, k + 3, k])

/-- `(1.0 / dims.as_vec3()).with_z(0.1)` — the block scale the mesher computes
internally (there is no caller-supplied scale parameter in `greedy_mesh`). -/
def block_size (dims : D3) : Q3 := ⟨1 / (dims.x : ℚ), 1 / (dims.y : ℚ), 1 / 10⟩

/-- The linearised grid index `r.z * idims.y * idims.x + r.y * idims.x + r.x`. -/
def grid_index (idims : V3) (r : V3) : ℤ :=
  r.z * idims.y * idims.x + r.y * idims.x + r.x

/-- Checked read `rgba_data[(...) as usize]`; `none` models the panic of an
out-of-range index (a negative index casts to a huge `usize`). -/
def grid_read (rgba_data : List ℕ) (idims : V3) (r : V3) : Option ℕ :=
  let idx := grid_index idims r
  if idx < 0 then none else rgba_data.get? idx.toNat

/-- `block_current` sample: coordinates below zero are treated as empty,
otherwise the grid is read. -/
def block_current (rgba_data : List ℕ) (idims : V3) (r : V3) : Option ℕ :=
  if r.x < 0 ∨ r.y < 0 ∨ r.z < 0 then some 0 else grid_read rgba_data idims r

/-- `block_compare` sample (at `r` with the sweep component already advanced):
coordinates equal to the dimension are treated as empty. -/
def block_compare (rgba_data : List ℕ) (idims : V3) (r : V3) : Option ℕ :=
  if r.x = idims.x ∨ r.y = idims.y ∨ r.z = idims.z then some 0 else grid_read rgba_data idims r

/-- The mask-cell computation of `lib.rs` lines 199–203: `match (current == 0,
compare == 0)`. -/
def mask_entry (block_current block_compare : ℕ) : ℕ × Bool :=
  match block_current == 0, block_compare == 0 with
  | true, false => (block_compare, true)
  | false, true => (block_current, false)
  | _, _ => (0, false)

/-- Checked `l[n] = a`; `none` models the panic of an out-of-bounds write. -/
def list_set_checked {α : Type} (l : List α) (n : ℕ) (a : α) : Option (List α) :=
  if n < l.length then some (l.set n a) else none

/-- Inner mask-fill loop (`while x[u] < idims[u]`), iterated `cnt` times with
`x[u]` starting at `xu`; writes one mask entry and advances `n` per step. -/
def fill_u (rgba_data : List ℕ) (idims : V3) (d u v : ℕ) (xd xv : ℤ) :
    ℕ → ℤ → ℕ → List (ℕ × Bool) → Option (List (ℕ × Bool) × ℕ)
  | 0, _, n, mask => some (mask, n)
  | cnt + 1, xu, n, mask => do
    let r := ((V3.zero.set d xd).set u xu).set v xv
    let cur ← block_current rgba_data idims r
    let rc := r.set d (r.get d + 1)
    let cmp ← block_compare rgba_data idims rc
    let mask ← list_set_checked mask n (mask_entry cur cmp)
    fill_u rgba_data idims d u v xd xv cnt (xu + 1) (n + 1) mask

/-- Outer mask-fill loop (`while x[v] < idims[v]`), iterated `cnt` times; the
running mask cursor `n` continues across rows. -/
def fill_v (rgba_data : List ℕ) (idims : V3) (d u v : ℕ) (xd : ℤ) (ucnt : ℕ) :
    ℕ → ℤ → ℕ → List (ℕ × Bool) → Option (List (ℕ × Bool) × ℕ)
  | 0, _, n, mask => some (mask, n)
  | cnt + 1, xv, n, mask => do
    let (mask, n) ← fill_u rgba_data idims d u v xd xv ucnt 0 n mask
    fill_v rgba_data idims d u v xd ucnt cnt (xv + 1) n mask

/-- Width scan of the merge phase: `while i + w < dims.x && block_mask[n + w]
== (kind, neg_d) { w += 1 }`.  `cnt` is the exact remaining iteration budget
`dims.x - (i + w)`, so `cnt = 0` coincides with the loop condition
`i + w < dims.x` failing. -/
def width_scan (mask : List (ℕ × Bool)) (key : ℕ × Bool) (n : ℕ) :
    ℕ → ℕ → Option ℕ
  | 0, w => some w
  | cnt + 1, w =>
    match mask.get? (n + w) with
    | none => none
    | some c => if c = key then width_scan mask key n cnt (w + 1) else some w

/-- Row check of the height scan: `for k in 0..w`, reading `block_mask[n + k +
h * dims.x]` (here `base = n + h * dims.x`), stopping at the first mismatch. -/
def row_check (mask : List (ℕ × Bool)) (key : ℕ × Bool) (base : ℕ) :
    ℕ → ℕ → Option Bool
  | 0, _ => some true
  | cnt + 1, k =>
    match mask.get? (base + k) with
    | none => none
    | some c => if c ≠ key then some false else row_check mask key base cnt (k + 1)

/-- Height scan: `while j + h < dims.y` accept a row only if every cell of
`[i, i+w)` in it matches the seed pair.  `cnt` is the exact remaining budget
`dims.y - (j + h)`. -/
def height_scan (mask : List (ℕ × Bool)) (key : ℕ × Bool) (X n w : ℕ) :
    ℕ → ℕ → Option ℕ
  | 0, h => some h
  | cnt + 1, h => do
    let ok ← row_check mask key (n + h * X) w 0
    if ok then height_scan mask key X n w cnt (h + 1) else some h

/-- Mask clearing of one row: `for w in 0..w { block_mask[n + w + h * dims.x].0
= 0 }` — the colour is zeroed, the orientation bit is kept. -/
def clear_row (base : ℕ) : ℕ → ℕ → List (ℕ × Bool) → Option (List (ℕ × Bool))
  | 0, _, mask => some mask
  | cnt + 1, k, mask =>
    match mask.get? (base + k) with
    | none => none
    | some c => do
      let mask ← list_set_checked mask (base + k) (0, c.2)
      clear_row base cnt (k + 1) mask

/-- Mask clearing: `for h in 0..h { for w in 0..w { ... } }`. -/
def clear_mask (n X w : ℕ) : ℕ → ℕ → List (ℕ × Bool) → Option (List (ℕ × Bool))
  | 0, _, mask => some mask
  | cnt + 1, h, mask => do
    let mask ← clear_row (n + h * X) w 0 mask
    clear_mask n X w cnt (h + 1) mask

/-- Quad construction of `lib.rs` lines 258–298: set `x[u] = i`, `x[v] = j`,
build `du`/`dv`, convert to float, swap the x/z components when `d == 1`,
centre by `dims * 0.5`, scale by the internal `block_size`, and order the four
corners by `neg_d`.  `xd1` is the sweep coordinate after the `x[d] += 1`
increment. -/
def emit_quad (dims : D3) (d u v : ℕ) (xd1 : ℤ) (i j w h : ℕ) (kind : ℕ)
    (neg_d : Bool) : Quad :=
  let x := ((V3.zero.set d xd1).set u (i : ℤ)).set v (j : ℤ)
  let du := V3.zero.set u (w : ℤ)
  let dv := V3.zero.set v (h : ℤ)
  let xq := x.as_vec3
  let duq := du.as_vec3
  let dvq := dv.as_vec3
  let xq := if d = 1 then xq.zyx else xq
  let duq := if d = 1 then duq.zyx else duq
  let dvq := if d = 1 then dvq.zyx else dvq
  let xq := xq - (dims.as_vec3.scale (1 / 2))
  let bs := block_size dims
  let xq := xq * bs
  let duq := duq * bs
  let dvq := dvq * bs
  { colour := kind
    corners :=
      if !neg_d then (xq, xq + duq, xq + duq + dvq, xq + dvq)
      else (xq + dvq, xq + duq + dvq, xq + duq, xq) }

/-- One iteration chain of the merge phase's inner loop (`while i < dims.y`).
The `fuel` argument only bounds the recursion; since the column cursor
advances by `w ≥ 1` each step, `fuel = dims.y` never runs out while
`i < dims.y`, and when it reaches `0` the loop has already terminated, so the
`0` branch coincides with the genuine loop exit. -/
def merge_row (dims : D3) (d u v : ℕ) (xd1 : ℤ) (j : ℕ) :
    ℕ → ℕ → ℕ → List (ℕ × Bool) → List Vertex → List ℕ →
    Option (ℕ × List (ℕ × Bool) × List Vertex × List ℕ)
  | 0, _, n, mask, vs, is => some (n, mask, vs, is)
  | fuel + 1, i, n, mask, vs, is =>
    if i < dims.y then
      match mask.get? n with
      | none => none
      | some cell =>
        if cell.1 = 0 then
          merge_row dims d u v xd1 j fuel (i + 1) (n + 1) mask vs is
        else do
          let key := cell
          let w ← width_scan mask key n (dims.x - (i + 1)) 1
          let h ← height_scan mask key dims.x n w (dims.y - (j + 1)) 1
          let quad := emit_quad dims d u v xd1 i j w h key.1 key.2
          let vsis := draw_quad vs is quad
          let mask ← clear_mask n dims.x w h 0 mask
          merge_row dims d u v xd1 j fuel (i + w) (n + w) mask vsis.1 vsis.2
    else some (n, mask, vs, is)

/-- The merge phase's outer loop `for j in 0..dims.x`, iterated `cnt` times;
the mask cursor `n` continues across the rows. -/
def merge_cols (dims : D3) (d u v : ℕ) (xd1 : ℤ) :
    ℕ → ℕ → ℕ → List (ℕ × Bool) → List Vertex → List ℕ →
    Option (ℕ × List (ℕ × Bool) × List Vertex × List ℕ)
  | 0, _, n, mask, vs, is => some (n, mask, vs, is)
  | cnt + 1, j, n, mask, vs, is => do
    let (n, mask, vs, is) ← merge_row dims d u v xd1 j dims.y 0 n mask vs is
    merge_cols dims d u v xd1 cnt (j + 1) n mask vs is

/-- The slice sweep `while x[d] < idims[d]` for one axis, starting at
`x[d] = -1` and running `dims[d] + 1` times: fill the mask at the current
sweep coordinate, advance `x[d]`, then run the greedy merge. -/
def slice_d (rgba_data : List ℕ) (dims : D3) (d u v : ℕ) :
    ℕ → ℤ → List (ℕ × Bool) → List Vertex → List ℕ →
    Option (List (ℕ × Bool) × List Vertex × List ℕ)
  | 0, _, mask, vs, is => some (mask, vs, is)
  | rem + 1, xd, mask, vs, is => do
    let idims := dims.as_ivec3
    let (mask, _) ← fill_v rgba_data idims d u v xd (dims.get u) (dims.get v) 0 0 mask
    let xd1 := xd + 1
    let (_, mask, vs, is) ← merge_cols dims d u v xd1 dims.x 0 0 mask vs is
    slice_d rgba_data dims d u v rem xd1 mask vs is

/-- One axis sweep of `greedy_mesh`: allocate a fresh mask of
`dims.x * dims.y * dims.z` cells and run the slice sweep. -/
def axis_sweep (rgba_data : List ℕ) (dims : D3) (d u v : ℕ)
    (vs : List Vertex) (is : List ℕ) : Option (List Vertex × List ℕ) := do
  let mask := List.replicate (dims.x * dims.y * dims.z) ((0 : ℕ), false)
  let (_, vs, is) ← slice_d rgba_data dims d u v (dims.get d + 1) (-1) mask vs is
  some (vs, is)

/-- `greedy_mesh` of `lib.rs`.  The `assert_eq!` precondition and every
indexing panic are modelled by `none`; on success the function returns the
final vertex and index buffers (the Rust function appends to caller-owned
buffers and returns `true`). -/
def greedy_mesh (rgba_data : List ℕ) (dims : D3) (vertices : List Vertex)
    (indices : List ℕ) : Option (List Vertex × List ℕ) :=
  if rgba_data.length = dims.x * dims.y * dims.z then do
    let (vs, is) ← axis_sweep rgba_data dims 0 1 2 vertices indices
    let (vs, is) ← axis_sweep rgba_data dims 1 2 0 vs is
    axis_sweep rgba_data dims 2 0 1 vs is
  else none

/-! ## The codec

`VoxelMesh::encode` / `VoxelMesh::decode` of `lib.rs`.  The byte reader and
writer come from the external `save_format` crate, which is not part of this
repository; they are modelled from the spec (§6: little-endian fixed-width
fields, magic at offset 0).  On this side an `f32` coordinate is carried as
its opaque 32-bit bit-pattern word, exactly as the codec itself treats it. -/

/-- `VOXEL_MESH_MAGIC`: the bytes of `b"VOXEL_MESH"`. -/
def VOXEL_MESH_MAGIC : List ℕ := [86, 79, 88, 69, 76, 95, 77, 69, 83, 72]

/-- `VOXEL_MESH_VERSION`. -/
def VOXEL_MESH_VERSION : List ℕ := [0, 0, 0, 1]

/-- `Vertex` as the codec sees it: three 32-bit coordinate words (the `f32`
bit patterns) and the colour word. -/
structure VertexBits where
  x : ℕ
  y : ℕ
  z : ℕ
  rgba : ℕ
deriving DecidableEq

/-- `VoxelMesh` of `lib.rs` (codec view). -/
structure VoxelMesh where
  vertices : List VertexBits
  indices : List ℕ
deriving DecidableEq

/-- `VoxelMeshDecodeError` of `lib.rs`. -/
inductive VoxelMeshDecodeError where
  | InvalidByteWriter : VoxelMeshDecodeError
  | InvalidMagicValue : VoxelMeshDecodeError
  | EOI : VoxelMeshDecodeError
  | InvalidVersion (lib_version file_version : List ℕ) : VoxelMeshDecodeError
deriving DecidableEq

/-- Modelled from the spec: `save_format`'s `ByteWriter::write_u32` emits the
four little-endian bytes of the value; a `usize` cast to `u32` keeps the low
32 bits, which the byte decomposition below realises for any `ℕ`. -/
def u32le (n : ℕ) : List ℕ :=
  [n % 256, n / 256 % 256, n / 65536 % 256, n / 16777216 % 256]

/-- The 16 bytes one vertex contributes: `write_f32 x/y/z` then
`write_u32 rgba`. -/
def vertex_bytes (v : VertexBits) : List ℕ :=
  u32le v.x ++ u32le v.y ++ u32le v.z ++ u32le v.rgba

/-- `VoxelMesh::encode`: magic, version, vertex count, vertex payload, index
count, index payload.  Modelled from the spec: the `ByteWriter` accumulates
bytes in order and `finish` returns them unchanged (§6 places the magic at
offset 0). -/
def VoxelMesh.encode (m : VoxelMesh) : List ℕ :=
  VOXEL_MESH_MAGIC ++ VOXEL_MESH_VERSION ++ u32le m.vertices.length ++
    (m.vertices.map vertex_bytes).flatten ++ u32le m.indices.length ++
    (m.indices.map u32le).flatten

/-- Modelled from the spec: `save_format`'s `ByteReader::new` can fail on a
buffer "too short to construct a reader", but the spec names no threshold and
its §6 layout places the magic at offset 0, so the model lets construction
succeed on every buffer (the reader is its remaining byte list). -/
def byte_reader_new (data : List ℕ) : Option (List ℕ) := some data

/-- Modelled from the spec: reading a fixed number of bytes from the reader;
`none` when the buffer is exhausted. -/
def read_bytes (r : List ℕ) (n : ℕ) : Option (List ℕ × List ℕ) :=
  if n ≤ r.length then some (r.take n, r.drop n) else none

/-- Modelled from the spec: `read_u32` (and `read_f32`, which yields the same
four bytes as an `f32` bit pattern) reads four little-endian bytes. -/
def read_u32 (r : List ℕ) : Option (ℕ × List ℕ) :=
  match read_bytes r 4 with
  | some ([b0, b1, b2, b3], rest) => some (b0 + 256 * b1 + 65536 * b2 + 16777216 * b3, rest)
  | _ => none

/-- The vertex-reading loop of `decode`: `for _ in 0..vertices_len` read
`x`, `y`, `z` (`read_f32`, carried as bit patterns) then `rgba`. -/
def read_vertices : ℕ → List ℕ → List VertexBits → Option (List VertexBits × List ℕ)
  | 0, r, acc => some (acc, r)
  | cnt + 1, r, acc => do
    let (x, r) ← read_u32 r
    let (y, r) ← read_u32 r
    let (z, r) ← read_u32 r
    let (rgba, r) ← read_u32 r
    read_vertices cnt r (acc ++ [⟨x, y, z, rgba⟩])

/-- The index-reading loop of `decode`. -/
def read_indices : ℕ → List ℕ → List ℕ → Option (List ℕ × List ℕ)
  | 0, r, acc => some (acc, r)
  | cnt + 1, r, acc => do
    let (t, r) ← read_u32 r
    read_indices cnt r (acc ++ [t])

/-- The inner closure of `VoxelMesh::decode`: `none` models a `?` propagation
(end of input), `some` carries the explicit `Result`. -/
def decode_aux (data : List ℕ) : Option (Except VoxelMeshDecodeError VoxelMesh) :=
  match byte_reader_new data with
  | none => some (.error .InvalidByteWriter)
  | some reader => do
    let (magic, reader) ← read_bytes reader 10
    if magic ≠ VOXEL_MESH_MAGIC then
      some (.error .InvalidMagicValue)
    else do
      let (version, reader) ← read_bytes reader 4
      if version ≠ VOXEL_MESH_VERSION then
        some (.error (.InvalidVersion VOXEL_MESH_VERSION version))
      else do
        let (vertices_len, reader) ← read_u32 reader
        let (vertices, reader) ← read_vertices vertices_len reader []
        let (indices_len, reader) ← read_u32 reader
        let (indices, _) ← read_indices indices_len reader []
        some (.ok ⟨vertices, indices⟩)

/-- `VoxelMesh::decode`: `decode().unwrap_or(Err(EOI))`. -/
def VoxelMesh.decode (data : List ℕ) : Except VoxelMeshDecodeError VoxelMesh :=
  (decode_aux data).getD (.error .EOI)

deriving instance DecidableEq for Except

/-! ## Codec lemmas -/

theorem read_bytes_append (a rest : List ℕ) :
    read_bytes (a ++ rest) a.length = some (a, rest) := by
  unfold read_bytes
  rw [if_pos (by simp), List.take_left, List.drop_left]

theorem read_u32_u32le (n : ℕ) (rest : List ℕ) (h : n < 2 ^ 32) :
    read_u32 (u32le n ++ rest) = some (n, rest) := by
  unfold read_u32
  rw [show (4 : ℕ) = (u32le n).length from rfl, read_bytes_append]
  simp only [u32le]
  exact congrArg (fun t => some (t, rest)) (by omega)

/-- Bounds needed for a vertex's four words to survive the byte round trip. -/
def vertex_bounded (v : VertexBits) : Prop :=
  v.x < 2 ^ 32 ∧ v.y < 2 ^ 32 ∧ v.z < 2 ^ 32 ∧ v.rgba < 2 ^ 32

instance (v : VertexBits) : Decidable (vertex_bounded v) := by
  unfold vertex_bounded; infer_instance

theorem read_vertices_append (vs : List VertexBits)
    (hb : ∀ x ∈ vs, vertex_bounded x) (acc : List VertexBits) (rest : List ℕ) :
    read_vertices vs.length ((vs.map vertex_bytes).flatten ++ rest) acc =
      some (acc ++ vs, rest) := by
  induction vs generalizing acc with
  | nil => simp [read_vertices]
  | cons v vs ih =>
    obtain ⟨h1, h2, h3, h4⟩ := hb v (by simp)
    simp only [List.map_cons, List.flatten_cons, List.length_cons, vertex_bytes,
      List.append_assoc]
    rw [read_vertices]
    rw [read_u32_u32le _ _ h1]
    simp only [Option.bind_eq_bind, Option.some_bind]
    rw [read_u32_u32le _ _ h2]
    simp only [Option.some_bind]
    rw [read_u32_u32le _ _ h3]
    simp only [Option.some_bind]
    rw [read_u32_u32le _ _ h4]
    simp only [Option.some_bind]
    rw [ih (fun x hx => hb x (by simp [hx]))]
    simp

theorem read_indices_append (ts : List ℕ) (hb : ∀ t ∈ ts, t < 2 ^ 32)
    (acc : List ℕ) (rest : List ℕ) :
    read_indices ts.length ((ts.map u32le).flatten ++ rest) acc =
      some (acc ++ ts, rest) := by
  induction ts generalizing acc with
  | nil => simp [read_indices]
  | cons t ts ih =>
    simp only [List.map_cons, List.flatten_cons, List.length_cons, List.append_assoc]
    rw [read_indices]
    rw [read_u32_u32le _ _ (hb t (by simp))]
    simp only [Option.bind_eq_bind, Option.some_bind]
    rw [ih (fun x hx => hb x (by simp [hx]))]
    simp

/-- C1: decoding an encoded mesh succeeds and returns an equal mesh — exact
equality of the vertex sequence (the `f32` coordinates being carried and
compared as their 32-bit patterns) and of the index sequence — for every mesh
whose vertex count, index count and stored 32-bit words fit in `u32`, which
includes every mesh the Mesher produces. -/
theorem decode_encode_roundtrip (m : VoxelMesh)
    (hv : m.vertices.length < 2 ^ 32) (hi : m.indices.length < 2 ^ 32)
    (hvb : ∀ v ∈ m.vertices, vertex_bounded v)
    (hib : ∀ t ∈ m.indices, t < 2 ^ 32) :
    VoxelMesh.decode m.encode = .ok m := by
  unfold VoxelMesh.decode VoxelMesh.encode decode_aux byte_reader_new
  simp only [List.append_assoc]
  rw [show (10 : ℕ) = VOXEL_MESH_MAGIC.length from rfl, read_bytes_append]
  simp only [Option.bind_eq_bind, Option.some_bind, ne_eq, not_true_eq_false, if_false,
    ite_false, reduceIte]
  rw [show (4 : ℕ) = VOXEL_MESH_VERSION.length from rfl, read_bytes_append]
  simp only [Option.some_bind, ne_eq, not_true_eq_false, reduceIte]
  rw [read_u32_u32le _ _ hv]
  simp only [Option.some_bind]
  rw [read_vertices_append m.vertices hvb [] _]
  simp only [Option.some_bind, List.nil_append]
  rw [read_u32_u32le _ _ hi]
  simp only [Option.some_bind]
  rw [show (List.map u32le m.indices).flatten =
    (List.map u32le m.indices).flatten ++ [] by simp]
  rw [read_indices_append m.indices hib [] _]
  simp [Option.getD]

/-- C1 witness: the round trip at a concrete one-vertex, three-index mesh. -/
theorem decode_encode_roundtrip_witness :
    VoxelMesh.decode (VoxelMesh.encode ⟨[⟨1, 2, 3, 4⟩], [0, 1, 2]⟩) =
      .ok ⟨[⟨1, 2, 3, 4⟩], [0, 1, 2]⟩ :=
  decode_encode_roundtrip ⟨[⟨1, 2, 3, 4⟩], [0, 1, 2]⟩ (by decide) (by decide)
    (by decide) (by decide)

/-- C10: decode validates nothing about the payload beyond structural reads —
this well-formed buffer (correct magic and version) decodes to `Ok` with a
mesh holding index `5` and zero vertices, violating the index-validity
invariant stated for Mesher output. -/
theorem decode_accepts_invalid_indices :
    VoxelMesh.decode
        (VOXEL_MESH_MAGIC ++ VOXEL_MESH_VERSION ++ u32le 0 ++ u32le 1 ++ u32le 5) =
      .ok ⟨[], [5]⟩ ∧
    ¬ ∀ t ∈ (VoxelMesh.mk [] [5]).indices, t < (VoxelMesh.mk [] [5]).vertices.length := by
  constructor
  · decide
  · decide

/-- C3 (code bug): a solid uniformly coloured `2×1×1` block does not produce
6 quads — the mesher's merge phase scans the mask with `dims.x`/`dims.y`
bounds for every axis and reads past the mask during the `d = 1` sweep, an
out-of-bounds panic (`none`); the `1×1×1` single-voxel case does produce
exactly 6 quads (24 vertices, 36 indices). -/
theorem solid_block_not_always_six_quads :
    greedy_mesh [7, 7] ⟨2, 1, 1⟩ [] [] = none ∧
    (greedy_mesh [7] ⟨1, 1, 1⟩ [] []).map (fun p => (p.1.length, p.2.length)) =
      some (24, 36) := by
  constructor
  · decide
  · decide

/-- C9 (code bug): on the well-formed grid `[0, 7]` with dims `(2,1,1)` (the
length precondition `2 = 2*1*1` holds and all dims are positive) the mesher
does not run to completion — the width scan of the `d = 1` merge reads the
mask out of bounds, modelled by `none`. -/
theorem mesher_not_total_on_wellformed_grid :
    greedy_mesh [0, 7] ⟨2, 1, 1⟩ [] [] = none ∧
    ([0, 7] : List ℕ).length = 2 * 1 * 1 := by
  constructor
  · decide
  · decide

theorem read_bytes_short (r : List ℕ) (n : ℕ) (h : r.length < n) :
    read_bytes r n = none := by
  unfold read_bytes
  rw [if_neg (by omega)]

theorem read_u32_cons (a b c d : ℕ) (r : List ℕ) :
    read_u32 (a :: b :: c :: d :: r) =
      some (a + 256 * b + 65536 * c + 16777216 * d, r) := by
  unfold read_u32 read_bytes
  rw [if_pos (by simp)]
  simp [List.take, List.drop]

theorem read_u32_short (r : List ℕ) (h : r.length < 4) : read_u32 r = none := by
  unfold read_u32
  rw [read_bytes_short r 4 h]

theorem exists_four_of_le_length (r : List ℕ) (h : 4 ≤ r.length) :
    ∃ a b c d t, r = a :: b :: c :: d :: t := by
  match r with
  | [] => simp at h
  | [a] => simp at h
  | [a, b] => simp at h
  | [a, b, c] => simp at h
  | a :: b :: c :: d :: t => exact ⟨a, b, c, d, t, rfl⟩

theorem read_u32_some_length (r : List ℕ) (x : ℕ) (r1 : List ℕ)
    (h : read_u32 r = some (x, r1)) : r1.length + 4 = r.length := by
  by_cases h4 : 4 ≤ r.length
  · obtain ⟨a, b, c, d, t, rfl⟩ := exists_four_of_le_length r h4
    rw [read_u32_cons] at h
    injection h with h
    rw [show r1 = t by exact congrArg Prod.snd h.symm]
    simp
  · rw [read_u32_short r (by omega)] at h
    exact absurd h (by simp)

theorem read_vertices_short (cnt : ℕ) (r : List ℕ) (acc : List VertexBits)
    (h : r.length < 16 * cnt) : read_vertices cnt r acc = none := by
  induction cnt generalizing r acc with
  | zero => omega
  | succ cnt ih =>
    rw [read_vertices]
    cases h1 : read_u32 r with
    | none => simp [h1]
    | some p =>
      obtain ⟨x, r1⟩ := p
      have l1 := read_u32_some_length r x r1 h1
      simp only [h1, Option.bind_eq_bind, Option.some_bind]
      cases h2 : read_u32 r1 with
      | none => simp [h2]
      | some p =>
        obtain ⟨y, r2⟩ := p
        have l2 := read_u32_some_length r1 y r2 h2
        simp only [h2, Option.some_bind]
        cases h3 : read_u32 r2 with
        | none => simp [h3]
        | some p =>
          obtain ⟨z, r3⟩ := p
          have l3 := read_u32_some_length r2 z r3 h3
          simp only [h3, Option.some_bind]
          cases h4 : read_u32 r3 with
          | none => simp [h4]
          | some p =>
            obtain ⟨w, r4⟩ := p
            have l4 := read_u32_some_length r3 w r4 h4
            simp only [h4, Option.some_bind]
            exact ih r4 _ (by omega)

theorem read_indices_short (cnt : ℕ) (r : List ℕ) (acc : List ℕ)
    (h : r.length < 4 * cnt) : read_indices cnt r acc = none := by
  induction cnt generalizing r acc with
  | zero => omega
  | succ cnt ih =>
    rw [read_indices]
    cases h1 : read_u32 r with
    | none => simp [h1]
    | some p =>
      obtain ⟨x, r1⟩ := p
      have l1 := read_u32_some_length r x r1 h1
      simp only [h1, Option.bind_eq_bind, Option.some_bind]
      exact ih r1 _ (by omega)

theorem vertex_payload_length (vs : List VertexBits) :
    ((vs.map vertex_bytes).flatten).length = 16 * vs.length := by
  induction vs with
  | nil => simp
  | cons v vs ih => simp [vertex_bytes, u32le, ih]; ring

theorem index_payload_length (ts : List ℕ) :
    ((ts.map u32le).flatten).length = 4 * ts.length := by
  induction ts with
  | nil => simp
  | cons t ts ih => simp [u32le, ih]; ring

theorem take_append_of_le (a s : List ℕ) (k : ℕ) (h : a.length ≤ k) :
    (a ++ s).take k = a ++ s.take (k - a.length) := by
  rw [List.take_append_eq_append_take, List.take_of_length_le h]


theorem decode_bad_magic (data : List ℕ) (h10 : 10 ≤ data.length)
    (hm : data.take 10 ≠ VOXEL_MESH_MAGIC) :
    VoxelMesh.decode data = .error .InvalidMagicValue := by
  unfold VoxelMesh.decode decode_aux byte_reader_new
  simp only [Option.bind_eq_bind]
  rw [show read_bytes data 10 = some (data.take 10, data.drop 10) by
    unfold read_bytes; rw [if_pos h10]]
  simp [hm]

theorem decode_bad_version (data : List ℕ) (hm : data.take 10 = VOXEL_MESH_MAGIC)
    (h14 : 14 ≤ data.length) (hv : (data.drop 10).take 4 ≠ VOXEL_MESH_VERSION) :
    VoxelMesh.decode data =
      .error (.InvalidVersion VOXEL_MESH_VERSION ((data.drop 10).take 4)) := by
  unfold VoxelMesh.decode decode_aux byte_reader_new
  simp only [Option.bind_eq_bind]
  rw [show read_bytes data 10 = some (data.take 10, data.drop 10) by
    unfold read_bytes; rw [if_pos (by omega)]]
  simp only [Option.some_bind, hm, ne_eq, not_true_eq_false, reduceIte]
  rw [show read_bytes (data.drop 10) 4 =
      some ((data.drop 10).take 4, (data.drop 10).drop 4) by
    unfold read_bytes; rw [if_pos (by simp; omega)]]
  simp [hv]

theorem decode_good_header (data : List ℕ) (hm : data.take 10 = VOXEL_MESH_MAGIC)
    (hv : (data.drop 10).take 4 = VOXEL_MESH_VERSION) :
    (∃ w, VoxelMesh.decode data = .ok w) ∨
      VoxelMesh.decode data = .error .EOI := by
  have h10 : 10 ≤ data.length := by
    have := congrArg List.length hm
    simp [VOXEL_MESH_MAGIC] at this
    omega
  have h14 : 4 ≤ (data.drop 10).length := by
    have := congrArg List.length hv
    simp [VOXEL_MESH_VERSION] at this
    simp only [List.length_drop]
    omega
  unfold VoxelMesh.decode decode_aux byte_reader_new
  simp only [Option.bind_eq_bind]
  rw [show read_bytes data 10 = some (data.take 10, data.drop 10) by
    unfold read_bytes; rw [if_pos h10]]
  simp only [Option.some_bind, hm, ne_eq, not_true_eq_false, reduceIte]
  rw [show read_bytes (data.drop 10) 4 =
      some ((data.drop 10).take 4, (data.drop 10).drop 4) by
    unfold read_bytes; rw [if_pos h14]]
  simp only [Option.some_bind, hv, ne_eq, not_true_eq_false, reduceIte]
  cases h1 : read_u32 ((data.drop 10).drop 4) with
  | none => right; simp [h1]
  | some p =>
    obtain ⟨n, r1⟩ := p
    simp only [h1, Option.some_bind]
    cases h2 : read_vertices n r1 [] with
    | none => right; simp [h2]
    | some p =>
      obtain ⟨vs, r2⟩ := p
      simp only [h2, Option.some_bind]
      cases h3 : read_u32 r2 with
      | none => right; simp [h3]
      | some p =>
        obtain ⟨cnt, r3⟩ := p
        simp only [h3, Option.some_bind]
        cases h4 : read_indices cnt r3 [] with
        | none => right; simp [h4]
        | some p =>
          obtain ⟨ts, r4⟩ := p
          left
          exact ⟨⟨vs, ts⟩, by simp [h4]⟩

theorem read_bytes_magic (s : List ℕ) :
    read_bytes (VOXEL_MESH_MAGIC ++ s) 10 = some (VOXEL_MESH_MAGIC, s) :=
  read_bytes_append _ _

theorem read_bytes_version (s : List ℕ) :
    read_bytes (VOXEL_MESH_VERSION ++ s) 4 = some (VOXEL_MESH_VERSION, s) :=
  read_bytes_append _ _

theorem decode_encode_prefix_eoi (m : VoxelMesh)
    (hv : m.vertices.length < 2 ^ 32) (hi : m.indices.length < 2 ^ 32)
    (hvb : ∀ v ∈ m.vertices, vertex_bounded v) :
    ∀ k, k < m.encode.length → VoxelMesh.decode (m.encode.take k) = .error .EOI := by
  intro k hk
  have hN := vertex_payload_length m.vertices
  have hM := index_payload_length m.indices
  have hLen : m.encode.length = 22 + 16 * m.vertices.length + 4 * m.indices.length := by
    unfold VoxelMesh.encode
    simp [VOXEL_MESH_MAGIC, VOXEL_MESH_VERSION, u32le, hN, hM]
    ring
  unfold VoxelMesh.decode decode_aux byte_reader_new
  simp only [Option.bind_eq_bind]
  unfold VoxelMesh.encode
  simp only [List.append_assoc]
  by_cases h1 : k < 10
  · rw [read_bytes_short _ 10 (by simp only [List.length_take]; omega)]
    simp
  push_neg at h1
  rw [take_append_of_le _ _ _ (by simp [VOXEL_MESH_MAGIC]; omega), read_bytes_magic]
  simp only [Option.some_bind, ne_eq, not_true_eq_false, reduceIte]
  by_cases h2 : k < 14
  · rw [read_bytes_short _ 4
      (by simp [List.length_take, VOXEL_MESH_MAGIC]; omega)]
    simp
  push_neg at h2
  rw [take_append_of_le _ _ _
    (by simp [VOXEL_MESH_MAGIC, VOXEL_MESH_VERSION]; omega), read_bytes_version]
  simp only [Option.some_bind, ne_eq, not_true_eq_false, reduceIte]
  by_cases h3 : k < 18
  · rw [read_u32_short _
      (by simp [List.length_take, VOXEL_MESH_MAGIC, VOXEL_MESH_VERSION]; omega)]
    simp
  push_neg at h3
  rw [take_append_of_le _ _ _
    (by simp [VOXEL_MESH_MAGIC, VOXEL_MESH_VERSION, u32le]; omega),
    read_u32_u32le _ _ hv]
  simp only [Option.some_bind]
  by_cases h4 : k < 18 + 16 * m.vertices.length
  · rw [read_vertices_short _ _ _
      (by simp [List.length_take, VOXEL_MESH_MAGIC, VOXEL_MESH_VERSION, u32le]; omega)]
    simp
  push_neg at h4
  rw [take_append_of_le _ _ _
    (by simp [VOXEL_MESH_MAGIC, VOXEL_MESH_VERSION, u32le, hN]; omega),
    read_vertices_append _ hvb [] _]
  simp only [Option.some_bind, List.nil_append]
  by_cases h5 : k < 22 + 16 * m.vertices.length
  · rw [read_u32_short _
      (by simp [List.length_take, VOXEL_MESH_MAGIC, VOXEL_MESH_VERSION, u32le, hN]; omega)]
    simp
  push_neg at h5
  rw [take_append_of_le _ _ _
    (by simp [VOXEL_MESH_MAGIC, VOXEL_MESH_VERSION, u32le, hN]; omega),
    read_u32_u32le _ _ hi]
  simp only [Option.some_bind]
  rw [read_indices_short _ _ _
    (by simp [List.length_take, VOXEL_MESH_MAGIC, VOXEL_MESH_VERSION, u32le, hN, hM]; omega)]
  simp

/-- C4: decode's error discipline — a buffer on which the reader cannot be
constructed yields `InvalidByteWriter` (the spec's `InvalidReader`; in the
model reader construction never fails, so this holds vacuously), a readable
buffer whose first 10 bytes differ from the magic yields `InvalidMagicValue`,
a 4-byte version field differing from `[0,0,0,1]` yields `InvalidVersion`
carrying both the library and the file version, and after a correct header
the result is only ever `Ok` or the single generic `EOI` error — in
particular every strict truncation of a well-formed encoding decodes to
`EOI`, never to a more specific error and never to a partial mesh. -/
theorem decode_error_discipline :
    (∀ data : List ℕ, byte_reader_new data = none →
        VoxelMesh.decode data = .error .InvalidByteWriter) ∧
    (∀ data : List ℕ, 10 ≤ data.length → data.take 10 ≠ VOXEL_MESH_MAGIC →
        VoxelMesh.decode data = .error .InvalidMagicValue) ∧
    (∀ data : List ℕ, data.take 10 = VOXEL_MESH_MAGIC → 14 ≤ data.length →
        (data.drop 10).take 4 ≠ VOXEL_MESH_VERSION →
        VoxelMesh.decode data =
          .error (.InvalidVersion VOXEL_MESH_VERSION ((data.drop 10).take 4))) ∧
    (∀ data : List ℕ, data.take 10 = VOXEL_MESH_MAGIC →
        (data.drop 10).take 4 = VOXEL_MESH_VERSION →
        (∃ w, VoxelMesh.decode data = .ok w) ∨
          VoxelMesh.decode data = .error .EOI) ∧
    (∀ m : VoxelMesh, m.vertices.length < 2 ^ 32 → m.indices.length < 2 ^ 32 →
        (∀ v ∈ m.vertices, vertex_bounded v) →
        ∀ k, k < m.encode.length →
          VoxelMesh.decode (m.encode.take k) = .error .EOI) :=
  ⟨fun _ h => by simp [byte_reader_new] at h,
   decode_bad_magic, decode_bad_version, decode_good_header, decode_encode_prefix_eoi⟩

/-- C4 witness: the error discipline at concrete buffers — all-`7` bytes hit
the magic check, a `[9,9,9,9]` version field is reported with both versions,
a correct bare header falls into the Ok-or-EOI clause, and a 17-byte
truncation of a well-formed encoding yields `EOI`. -/
theorem decode_error_discipline_witness :
    VoxelMesh.decode (List.replicate 14 7) = .error .InvalidMagicValue ∧
    VoxelMesh.decode (VOXEL_MESH_MAGIC ++ [9, 9, 9, 9]) =
      .error (.InvalidVersion VOXEL_MESH_VERSION [9, 9, 9, 9]) ∧
    ((∃ w, VoxelMesh.decode (VOXEL_MESH_MAGIC ++ VOXEL_MESH_VERSION) = .ok w) ∨
      VoxelMesh.decode (VOXEL_MESH_MAGIC ++ VOXEL_MESH_VERSION) = .error .EOI) ∧
    VoxelMesh.decode ((VoxelMesh.encode ⟨[], []⟩).take 17) = .error .EOI := by
  refine ⟨?_, ?_, ?_, ?_⟩
  · exact decode_error_discipline.2.1 _ (by decide) (by decide)
  · exact decode_error_discipline.2.2.1 _ (by decide) (by decide) (by decide)
  · exact decode_error_discipline.2.2.2.1 _ (by decide) (by decide)
  · exact decode_error_discipline.2.2.2.2 ⟨[], []⟩ (by decide) (by decide)
      (by decide) 17 (by decide)

instance : Add V3 := ⟨fun a b => ⟨a.x + b.x, a.y + b.y, a.z + b.z⟩⟩

theorem V3.add_eq (a b : V3) : a + b = ⟨a.x + b.x, a.y + b.y, a.z + b.z⟩ := rfl

/-- The x/z swap that `greedy_mesh` applies to position and extent vectors
exactly when the sweep axis is `d = 1`. -/
def axis_swizzle (d : ℕ) (a : Q3) : Q3 := if d = 1 then a.zyx else a

/-- The transformed quad origin: sweep position with `u`,`v` set to `(i,j)`,
swizzled for `d = 1`, centred by `dims/2`, scaled by the internal
`block_size`. -/
def quad_base (dims : D3) (d u v : ℕ) (xd1 : ℤ) (i j : ℕ) : Q3 :=
  (axis_swizzle d (((V3.zero.set d xd1).set u (i : ℤ)).set v (j : ℤ)).as_vec3 -
    dims.as_vec3.scale (1 / 2)) * block_size dims

/-- The transformed width extent of a quad. -/
def quad_du (dims : D3) (d u : ℕ) (w : ℕ) : Q3 :=
  axis_swizzle d (V3.zero.set u (w : ℤ)).as_vec3 * block_size dims

/-- The transformed height extent of a quad. -/
def quad_dv (dims : D3) (d v : ℕ) (h : ℕ) : Q3 :=
  axis_swizzle d (V3.zero.set v (h : ℤ)).as_vec3 * block_size dims

/-- C6: quad emission — `draw_quad` appends exactly 4 vertices, all carrying
the quad's colour, then exactly the indices `k, k+1, k+2, k+2, k+3, k` for
`k` the prior vertex count; and the constructed quad's corners are ordered
`origin, origin+du, origin+du+dv, origin+dv` for a positive-facing quad and
exactly reversed for a negative-facing one. -/
theorem quad_emission_layout :
    (∀ (vs : List Vertex) (is : List ℕ) (q : Quad),
      draw_quad vs is q =
        (vs ++ [Vertex.new q.corners.1 q.colour, Vertex.new q.corners.2.1 q.colour,
                Vertex.new q.corners.2.2.1 q.colour, Vertex.new q.corners.2.2.2 q.colour],
         is ++ [vs.length, vs.length + 1, vs.length + 2, vs.length + 2,
                vs.length + 3, vs.length])) ∧
    (∀ (dims : D3) (d u v : ℕ) (xd1 : ℤ) (i j w h kind : ℕ) (neg_d : Bool),
      emit_quad dims d u v xd1 i j w h kind neg_d =
        { colour := kind
          corners :=
            if neg_d then
              (quad_base dims d u v xd1 i j + quad_dv dims d v h,
               quad_base dims d u v xd1 i j + quad_du dims d u w + quad_dv dims d v h,
               quad_base dims d u v xd1 i j + quad_du dims d u w,
               quad_base dims d u v xd1 i j)
            else
              (quad_base dims d u v xd1 i j,
               quad_base dims d u v xd1 i j + quad_du dims d u w,
               quad_base dims d u v xd1 i j + quad_du dims d u w + quad_dv dims d v h,
               quad_base dims d u v xd1 i j + quad_dv dims d v h) }) := by
  constructor
  · intro vs is q
    simp [draw_quad, List.append_assoc]
  · intro dims d u v xd1 i j w h kind neg_d
    cases neg_d <;>
      simp [emit_quad, quad_base, quad_du, quad_dv, axis_swizzle]

/-- C5: a mask cell is nonzero only at a solid/empty transition — both-empty
and both-solid sample pairs (in particular two adjacent solid voxels of
different colours) produce `(0, false)`, and every quad is emitted with a
single colour carried by all four of its vertices, so no emitted quad spans
two colours. -/
theorem mask_solid_empty_only :
    (∀ a b : ℕ, (a = 0 ∧ b = 0) ∨ (a ≠ 0 ∧ b ≠ 0) → mask_entry a b = (0, false)) ∧
    (∀ a b : ℕ, a ≠ 0 → b ≠ 0 → a ≠ b → mask_entry a b = (0, false)) ∧
    (∀ (vs : List Vertex) (is : List ℕ) (q : Quad) (t : Vertex),
      t ∈ (draw_quad vs is q).1 → t ∈ vs ∨ t.rgba = q.colour) := by
  refine ⟨?_, ?_, ?_⟩
  · rintro a b (⟨rfl, rfl⟩ | ⟨ha, hb⟩)
    · rfl
    · simp [mask_entry, ha, hb]
  · intro a b ha hb _
    simp [mask_entry, ha, hb]
  · intro vs is q t ht
    simp only [draw_quad, List.append_assoc, List.mem_append, List.mem_singleton] at ht
    rcases ht with ht | rfl | rfl | rfl | rfl
    · exact Or.inl ht
    all_goals right; rfl

/-- C5 witness: the mask entries at concrete sample pairs (both empty; both
solid with different colours 3 and 5) and the single-colour property of an
emitted vertex. -/
theorem mask_solid_empty_only_witness :
    mask_entry 0 0 = (0, false) ∧ mask_entry 3 5 = (0, false) ∧
    (Vertex.new ⟨0, 0, 0⟩ 9 ∈ ([] : List Vertex) ∨
      (Vertex.new ⟨0, 0, 0⟩ 9).rgba = Quad.colour ⟨9, ⟨0,0,0⟩, ⟨0,0,0⟩, ⟨0,0,0⟩, ⟨0,0,0⟩⟩) := by
  refine ⟨?_, ?_, ?_⟩
  · exact mask_solid_empty_only.1 0 0 (Or.inl ⟨rfl, rfl⟩)
  · exact mask_solid_empty_only.2.1 3 5 (by decide) (by decide) (by decide)
  · exact mask_solid_empty_only.2.2 [] [] ⟨9, ⟨0,0,0⟩, ⟨0,0,0⟩, ⟨0,0,0⟩, ⟨0,0,0⟩⟩
      (Vertex.new ⟨0, 0, 0⟩ 9) (by decide)

/-- Modelled from the spec (§4.1 step 4, the claim's reading): a corner is
the integer grid position converted to float, shifted by `dims/2`, then
multiplied component-wise by a caller-supplied block scale `s` — with no
other transformation on any axis. -/
def spec_corner_map (dims : D3) (s : Q3) (p : V3) : Q3 :=
  (p.as_vec3 - dims.as_vec3.scale (1 / 2)) * s

/-- Modelled from the spec: the four corners the claim predicts for a quad at
integer origin `x` with extents `w` along `u` and `h` along `v`, wound by
`negativeFace`. -/
def spec_quad_corners (dims : D3) (u v : ℕ) (x : V3) (w h : ℕ) (neg : Bool)
    (s : Q3) : Q3 × Q3 × Q3 × Q3 :=
  let du := V3.zero.set u (w : ℤ)
  let dv := V3.zero.set v (h : ℤ)
  if neg then
    (spec_corner_map dims s (x + dv), spec_corner_map dims s (x + du + dv),
     spec_corner_map dims s (x + du), spec_corner_map dims s x)
  else
    (spec_corner_map dims s x, spec_corner_map dims s (x + du),
     spec_corner_map dims s (x + du + dv), spec_corner_map dims s (x + dv))

/-- C2 counterexample: meshing the single-voxel grid `[5]` of dims `(1,1,1)`
emits exactly the six quads below (so the `d = 1` negative quad with
`i = j = 0`, `w = h = 1`, sweep coordinate `0` really is emitted), and no
block scale `s` whatsoever makes that quad's corners equal the claim's
formula — the mesher swizzles the x/z axes for `d = 1` before shifting and
scaling, so the corner positions do not arise from any per-axis scale. -/
theorem emitted_corners_not_spec_scaled :
    greedy_mesh [5] ⟨1, 1, 1⟩ [] [] =
      some (List.foldl (fun p q => draw_quad p.1 p.2 q) ([], [])
        [emit_quad ⟨1,1,1⟩ 0 1 2 0 0 0 1 1 5 true,
         emit_quad ⟨1,1,1⟩ 0 1 2 1 0 0 1 1 5 false,
         emit_quad ⟨1,1,1⟩ 1 2 0 0 0 0 1 1 5 true,
         emit_quad ⟨1,1,1⟩ 1 2 0 1 0 0 1 1 5 false,
         emit_quad ⟨1,1,1⟩ 2 0 1 0 0 0 1 1 5 true,
         emit_quad ⟨1,1,1⟩ 2 0 1 1 0 0 1 1 5 false]) ∧
    ¬ ∃ s : Q3,
      (emit_quad ⟨1,1,1⟩ 1 2 0 0 0 0 1 1 5 true).corners =
        spec_quad_corners ⟨1,1,1⟩ 2 0 (((V3.zero.set 1 0).set 2 (0 : ℤ)).set 0 (0 : ℤ))
          1 1 true s := by
  constructor
  · rfl
  · rintro ⟨s, hs⟩
    have h0 := congrArg (fun t => t.1.x) hs
    have h3 := congrArg (fun t => t.2.2.2.x) hs
    simp [emit_quad, spec_quad_corners, spec_corner_map, axis_swizzle, V3.zero, V3.set,
      V3.as_vec3, V3.add_eq, D3.as_vec3, Q3.scale, Q3.zyx, block_size,
      Q3.add_def, Q3.sub_def, Q3.mul_def] at h0 h3
    norm_num at h0 h3
    linarith

/-- C2 amended: `greedy_mesh` takes no caller-supplied block scale; every
emitted quad corner equals the integer grid corner (origin plus the `du`/`dv`
extents in winding order), x/z-swizzled when the sweep axis is `d = 1`,
converted to float, shifted by `dims/2`, and multiplied component-wise by the
internally computed `block_size dims = (1/X, 1/Y, 1/10)`. -/
theorem emitted_corners_internal_scale (dims : D3) (d u v : ℕ) (xd1 : ℤ)
    (i j w h kind : ℕ) (neg_d : Bool) :
    (emit_quad dims d u v xd1 i j w h kind neg_d).corners =
      (let x := ((V3.zero.set d xd1).set u (i : ℤ)).set v (j : ℤ)
       let du := V3.zero.set u (w : ℤ)
       let dv := V3.zero.set v (h : ℤ)
       let F := fun p : V3 =>
         (axis_swizzle d p.as_vec3 - dims.as_vec3.scale (1 / 2)) * block_size dims
       if neg_d then (F (x + dv), F (x + du + dv), F (x + du), F x)
       else (F x, F (x + du), F (x + du + dv), F (x + dv))) := by
  cases neg_d <;> by_cases hd : d = 1 <;>
    simp only [emit_quad, axis_swizzle, hd, if_true, if_false, reduceIte, Bool.not_false,
      Bool.not_true, V3.add_eq, V3.as_vec3, Q3.add_def, Q3.sub_def, Q3.mul_def,
      Q3.scale, Q3.zyx, Prod.mk.injEq, Q3.mk.injEq] <;>
    norm_num <;> and_intros <;> ring_nf

/-- The output-buffer invariant of claim C7: indices in range, vertex count a
multiple of 4, index count a multiple of 6. -/
def buffers_inv (vs : List Vertex) (is : List ℕ) : Prop :=
  (∀ t ∈ is, t < vs.length) ∧ 4 ∣ vs.length ∧ 6 ∣ is.length

theorem draw_quad_inv (vs : List Vertex) (is : List ℕ) (q : Quad)
    (h : buffers_inv vs is) :
    buffers_inv (draw_quad vs is q).1 (draw_quad vs is q).2 := by
  obtain ⟨h1, h2, h3⟩ := h
  refine ⟨?_, ?_, ?_⟩
  · intro t ht
    simp only [draw_quad, List.append_assoc, List.mem_append, List.mem_cons,
      List.not_mem_nil, or_false] at ht
    simp only [draw_quad, List.append_assoc, List.length_append, List.length_singleton,
      List.length_cons, List.length_nil]
    rcases ht with ht | rfl | rfl | rfl | rfl | rfl | rfl
    · have := h1 t ht
      omega
    all_goals omega
  · simp only [draw_quad, List.append_assoc, List.length_append, List.length_singleton,
      List.length_cons, List.length_nil]
    omega
  · simp only [draw_quad, List.append_assoc, List.length_append, List.length_singleton,
      List.length_cons, List.length_nil]
    omega

theorem merge_row_inv (dims : D3) (d u v : ℕ) (xd1 : ℤ) (j : ℕ) :
    ∀ (fuel i n : ℕ) (mask : List (ℕ × Bool)) (vs : List Vertex) (is : List ℕ)
      (n' : ℕ) (mask' : List (ℕ × Bool)) (vs' : List Vertex) (is' : List ℕ),
      merge_row dims d u v xd1 j fuel i n mask vs is = some (n', mask', vs', is') →
      buffers_inv vs is → buffers_inv vs' is' := by
  intro fuel
  induction fuel with
  | zero =>
    intro i n mask vs is n' mask' vs' is' hrun h
    rw [merge_row] at hrun
    simp only [Option.some.injEq, Prod.mk.injEq] at hrun
    obtain ⟨-, -, rfl, rfl⟩ := hrun
    exact h
  | succ fuel ih =>
    intro i n mask vs is n' mask' vs' is' hrun h
    rw [merge_row] at hrun
    by_cases hi : i < dims.y
    · simp only [if_pos hi] at hrun
      cases hm : mask.get? n with
      | none => rw [hm] at hrun; cases hrun
      | some cell =>
        rw [hm] at hrun
        simp only at hrun
        by_cases hc : cell.1 = 0
        · rw [if_pos hc] at hrun
          exact ih _ _ _ _ _ _ _ _ _ hrun h
        · rw [if_neg hc] at hrun
          cases hw : width_scan mask cell n (dims.x - (i + 1)) 1 with
          | none => rw [hw] at hrun; cases hrun
          | some w =>
            rw [hw] at hrun
            simp only [Option.bind_eq_bind, Option.some_bind] at hrun
            cases hh : height_scan mask cell dims.x n w (dims.y - (j + 1)) 1 with
            | none => rw [hh] at hrun; cases hrun
            | some hgt =>
              rw [hh] at hrun
              simp only [Option.some_bind] at hrun
              cases hcl : clear_mask n dims.x w hgt 0 mask with
              | none => rw [hcl] at hrun; cases hrun
              | some mask2 =>
                rw [hcl] at hrun
                simp only [Option.some_bind] at hrun
                exact ih _ _ _ _ _ _ _ _ _ hrun (draw_quad_inv _ _ _ h)
    · simp only [if_neg hi, Option.some.injEq, Prod.mk.injEq] at hrun
      obtain ⟨-, -, rfl, rfl⟩ := hrun
      exact h

theorem merge_cols_inv (dims : D3) (d u v : ℕ) (xd1 : ℤ) :
    ∀ (cnt j n : ℕ) (mask : List (ℕ × Bool)) (vs : List Vertex) (is : List ℕ)
      (n' : ℕ) (mask' : List (ℕ × Bool)) (vs' : List Vertex) (is' : List ℕ),
      merge_cols dims d u v xd1 cnt j n mask vs is = some (n', mask', vs', is') →
      buffers_inv vs is → buffers_inv vs' is' := by
  intro cnt
  induction cnt with
  | zero =>
    intro j n mask vs is n' mask' vs' is' hrun h
    rw [merge_cols] at hrun
    simp only [Option.some.injEq, Prod.mk.injEq] at hrun
    obtain ⟨-, -, rfl, rfl⟩ := hrun
    exact h
  | succ cnt ih =>
    intro j n mask vs is n' mask' vs' is' hrun h
    rw [merge_cols] at hrun
    cases hr : merge_row dims d u v xd1 j dims.y 0 n mask vs is with
    | none => rw [hr] at hrun; cases hrun
    | some p =>
      obtain ⟨n2, mask2, vs2, is2⟩ := p
      rw [hr] at hrun
      simp only [Option.bind_eq_bind, Option.some_bind] at hrun
      exact ih _ _ _ _ _ _ _ _ _ hrun
        (merge_row_inv dims d u v xd1 j dims.y 0 n mask vs is n2 mask2 vs2 is2 hr h)

theorem slice_d_inv (rgba_data : List ℕ) (dims : D3) (d u v : ℕ) :
    ∀ (rem : ℕ) (xd : ℤ) (mask : List (ℕ × Bool)) (vs : List Vertex) (is : List ℕ)
      (mask' : List (ℕ × Bool)) (vs' : List Vertex) (is' : List ℕ),
      slice_d rgba_data dims d u v rem xd mask vs is = some (mask', vs', is') →
      buffers_inv vs is → buffers_inv vs' is' := by
  intro rem
  induction rem with
  | zero =>
    intro xd mask vs is mask' vs' is' hrun h
    rw [slice_d] at hrun
    simp only [Option.some.injEq, Prod.mk.injEq] at hrun
    obtain ⟨-, rfl, rfl⟩ := hrun
    exact h
  | succ rem ih =>
    intro xd mask vs is mask' vs' is' hrun h
    rw [slice_d] at hrun
    cases hf : fill_v rgba_data dims.as_ivec3 d u v xd (dims.get u) (dims.get v) 0 0 mask with
    | none => rw [hf] at hrun; cases hrun
    | some p =>
      obtain ⟨mask2, n2⟩ := p
      rw [hf] at hrun
      simp only [Option.bind_eq_bind, Option.some_bind] at hrun
      cases hm : merge_cols dims d u v (xd + 1) dims.x 0 0 mask2 vs is with
      | none => rw [hm] at hrun; cases hrun
      | some q =>
        obtain ⟨n3, mask3, vs3, is3⟩ := q
        rw [hm] at hrun
        simp only [Option.some_bind] at hrun
        exact ih _ _ _ _ _ _ _ hrun
          (merge_cols_inv dims d u v (xd + 1) dims.x 0 0 mask2 vs is n3 mask3 vs3 is3 hm h)

theorem axis_sweep_inv (rgba_data : List ℕ) (dims : D3) (d u v : ℕ)
    (vs : List Vertex) (is : List ℕ) (vs' : List Vertex) (is' : List ℕ)
    (hrun : axis_sweep rgba_data dims d u v vs is = some (vs', is'))
    (h : buffers_inv vs is) : buffers_inv vs' is' := by
  simp only [axis_sweep] at hrun
  cases hs : slice_d rgba_data dims d u v (dims.get d + 1) (-1)
      (List.replicate (dims.x * dims.y * dims.z) ((0 : ℕ), false)) vs is with
  | none => rw [hs] at hrun; cases hrun
  | some p =>
    obtain ⟨mask2, vs2, is2⟩ := p
    rw [hs] at hrun
    simp only [Option.bind_eq_bind, Option.some_bind, Option.some.injEq,
      Prod.mk.injEq] at hrun
    obtain ⟨rfl, rfl⟩ := hrun
    exact slice_d_inv rgba_data dims d u v _ _ _ vs is _ _ _ hs h

/-- C7: for every well-formed grid (length `X*Y*Z`, positive dims) and empty
initial output buffers, when the mesher runs to completion every index it
produced is strictly below the vertex count, the index count is a multiple
of 6 and the vertex count a multiple of 4. -/
theorem mesher_output_invariants (grid : List ℕ) (dims : D3)
    (vs : List Vertex) (is : List ℕ)
    (hlen : grid.length = dims.x * dims.y * dims.z)
    (_hx : 0 < dims.x) (_hy : 0 < dims.y) (_hz : 0 < dims.z)
    (hrun : greedy_mesh grid dims [] [] = some (vs, is)) :
    (∀ t ∈ is, t < vs.length) ∧ 4 ∣ vs.length ∧ 6 ∣ is.length := by
  unfold greedy_mesh at hrun
  rw [if_pos hlen] at hrun
  cases h1 : axis_sweep grid dims 0 1 2 [] [] with
  | none => rw [h1] at hrun; cases hrun
  | some p =>
    obtain ⟨vs1, is1⟩ := p
    rw [h1] at hrun
    simp only [Option.bind_eq_bind, Option.some_bind] at hrun
    cases h2 : axis_sweep grid dims 1 2 0 vs1 is1 with
    | none => rw [h2] at hrun; cases hrun
    | some q =>
      obtain ⟨vs2, is2⟩ := q
      rw [h2] at hrun
      simp only [Option.some_bind] at hrun
      have inv0 : buffers_inv ([] : List Vertex) ([] : List ℕ) := by
        refine ⟨?_, ?_, ?_⟩ <;> simp
      exact axis_sweep_inv grid dims 2 0 1 vs2 is2 vs is hrun
        (axis_sweep_inv grid dims 1 2 0 vs1 is1 vs2 is2 h2
          (axis_sweep_inv grid dims 0 1 2 [] [] vs1 is1 h1 inv0))

/-- The six quads of the single-voxel `1×1×1` run, in emission order. -/
def single_voxel_run : List Vertex × List ℕ :=
  List.foldl (fun p q => draw_quad p.1 p.2 q) ([], [])
    [emit_quad ⟨1,1,1⟩ 0 1 2 0 0 0 1 1 5 true,
     emit_quad ⟨1,1,1⟩ 0 1 2 1 0 0 1 1 5 false,
     emit_quad ⟨1,1,1⟩ 1 2 0 0 0 0 1 1 5 true,
     emit_quad ⟨1,1,1⟩ 1 2 0 1 0 0 1 1 5 false,
     emit_quad ⟨1,1,1⟩ 2 0 1 0 0 0 1 1 5 true,
     emit_quad ⟨1,1,1⟩ 2 0 1 1 0 0 1 1 5 false]

/-- C7 witness: the invariants at the concrete single-voxel run. -/
theorem mesher_output_invariants_witness :
    (∀ t ∈ single_voxel_run.2, t < single_voxel_run.1.length) ∧
      4 ∣ single_voxel_run.1.length ∧ 6 ∣ single_voxel_run.2.length :=
  mesher_output_invariants [5] ⟨1, 1, 1⟩ single_voxel_run.1 single_voxel_run.2
    (by decide) (by decide) (by decide) (by decide) rfl

theorem get?_replicate {α : Type} (a : α) :
    ∀ (L n : ℕ), n < L → (List.replicate L a).get? n = some a := by
  intro L
  induction L with
  | zero => intro n h; omega
  | succ L ih =>
    intro n h
    cases n with
    | zero => simp [List.replicate]
    | succ n => simpa [List.replicate] using ih n (by omega)

theorem set_replicate_self {α : Type} (a : α) :
    ∀ (L n : ℕ), (List.replicate L a).set n a = List.replicate L a := by
  intro L
  induction L with
  | zero => intro n; simp
  | succ L ih =>
    intro n
    cases n with
    | zero => simp [List.replicate]
    | succ n => simp [List.replicate, ih n]

theorem grid_index_bounds (X Y Z x y z : ℤ) (hx0 : 0 ≤ x) (hx : x < X)
    (hy0 : 0 ≤ y) (hy : y < Y) (hz0 : 0 ≤ z) (hz : z < Z) :
    0 ≤ z * Y * X + y * X + x ∧ z * Y * X + y * X + x < X * Y * Z := by
  have hX : 0 < X := lt_of_le_of_lt hx0 hx
  have hY : 0 < Y := lt_of_le_of_lt hy0 hy
  constructor
  · have h1 : 0 ≤ z * Y * X := mul_nonneg (mul_nonneg hz0 (le_of_lt hY)) (le_of_lt hX)
    have h2 : 0 ≤ y * X := mul_nonneg hy0 (le_of_lt hX)
    linarith
  · have hYX : 0 ≤ Y * X := mul_nonneg (le_of_lt hY) (le_of_lt hX)
    calc z * Y * X + y * X + x < z * Y * X + y * X + X := by linarith
      _ = z * (Y * X) + (y + 1) * X := by ring
      _ ≤ z * (Y * X) + Y * X := by
          have h3 : (y + 1) * X ≤ Y * X :=
            mul_le_mul_of_nonneg_right (by linarith) (le_of_lt hX)
          linarith
      _ = (z + 1) * (Y * X) := by ring
      _ ≤ Z * (Y * X) := mul_le_mul_of_nonneg_right (by linarith) hYX
      _ = X * Y * Z := by ring

theorem grid_read_zero (dims : D3) (r : V3)
    (hx0 : 0 ≤ r.x) (hx : r.x < (dims.x : ℤ)) (hy0 : 0 ≤ r.y) (hy : r.y < (dims.y : ℤ))
    (hz0 : 0 ≤ r.z) (hz : r.z < (dims.z : ℤ)) :
    grid_read (List.replicate (dims.x * dims.y * dims.z) 0) dims.as_ivec3 r = some 0 := by
  unfold grid_read grid_index
  obtain ⟨hb0, hb1⟩ := grid_index_bounds (dims.x : ℤ) (dims.y : ℤ) (dims.z : ℤ)
    r.x r.y r.z hx0 hx hy0 hy hz0 hz
  simp only [D3.as_ivec3]
  rw [if_neg (by omega)]
  apply get?_replicate
  rw [Int.toNat_lt hb0]
  push_cast
  linarith

theorem block_current_zero (dims : D3) (r : V3)
    (hx : r.x < (dims.x : ℤ)) (hy : r.y < (dims.y : ℤ)) (hz : r.z < (dims.z : ℤ)) :
    block_current (List.replicate (dims.x * dims.y * dims.z) 0) dims.as_ivec3 r = some 0 := by
  unfold block_current
  by_cases hneg : r.x < 0 ∨ r.y < 0 ∨ r.z < 0
  · rw [if_pos hneg]
  · rw [if_neg hneg]
    push_neg at hneg
    exact grid_read_zero dims r hneg.1 hx hneg.2.1 hy hneg.2.2 hz

theorem block_compare_zero (dims : D3) (r : V3)
    (hx0 : 0 ≤ r.x) (hx : r.x ≤ (dims.x : ℤ)) (hy0 : 0 ≤ r.y) (hy : r.y ≤ (dims.y : ℤ))
    (hz0 : 0 ≤ r.z) (hz : r.z ≤ (dims.z : ℤ)) :
    block_compare (List.replicate (dims.x * dims.y * dims.z) 0) dims.as_ivec3 r = some 0 := by
  unfold block_compare
  simp only [D3.as_ivec3]
  by_cases heq : r.x = (dims.x : ℤ) ∨ r.y = (dims.y : ℤ) ∨ r.z = (dims.z : ℤ)
  · rw [if_pos heq]
  · rw [if_neg heq]
    push_neg at heq
    exact grid_read_zero dims r hx0 (by omega) hy0 (by omega) hz0 (by omega)

theorem fill_u_zero (grid : List ℕ) (idims : V3) (d u v : ℕ) (xd xv : ℤ)
    (L U : ℕ)
    (hsamp : ∀ xu : ℤ, 0 ≤ xu → xu < (U : ℤ) →
      block_current grid idims (((V3.zero.set d xd).set u xu).set v xv) = some 0 ∧
      block_compare grid idims
        ((((V3.zero.set d xd).set u xu).set v xv).set d
          ((((V3.zero.set d xd).set u xu).set v xv).get d + 1)) = some 0) :
    ∀ (cnt : ℕ) (xu : ℤ) (n : ℕ), 0 ≤ xu → xu + cnt ≤ (U : ℤ) → n + cnt ≤ L →
      fill_u grid idims d u v xd xv cnt xu n (List.replicate L ((0 : ℕ), false)) =
        some (List.replicate L ((0 : ℕ), false), n + cnt) := by
  intro cnt
  induction cnt with
  | zero => intro xu n _ _ _; simp [fill_u]
  | succ cnt ih =>
    intro xu n hxu0 hxu hn
    obtain ⟨hc, hp⟩ := hsamp xu hxu0 (by push_cast at hxu ⊢; omega)
    rw [fill_u]
    rw [hc]
    simp only [Option.bind_eq_bind, Option.some_bind]
    rw [hp]
    simp only [Option.some_bind]
    rw [show list_set_checked (List.replicate L ((0 : ℕ), false)) n (mask_entry 0 0) =
        some (List.replicate L ((0 : ℕ), false)) by
      unfold list_set_checked
      rw [if_pos (by simp [List.length_replicate]; omega)]
      rw [show mask_entry 0 0 = ((0 : ℕ), false) from rfl, set_replicate_self]]
    simp only [Option.some_bind]
    rw [ih (xu + 1) (n + 1) (by omega) (by push_cast at hxu ⊢; omega) (by omega)]
    rw [show n + 1 + cnt = n + (cnt + 1) by omega]

theorem fill_v_zero (grid : List ℕ) (idims : V3) (d u v : ℕ) (xd : ℤ)
    (L U V : ℕ)
    (hsamp : ∀ xu xv : ℤ, 0 ≤ xu → xu < (U : ℤ) → 0 ≤ xv → xv < (V : ℤ) →
      block_current grid idims (((V3.zero.set d xd).set u xu).set v xv) = some 0 ∧
      block_compare grid idims
        ((((V3.zero.set d xd).set u xu).set v xv).set d
          ((((V3.zero.set d xd).set u xu).set v xv).get d + 1)) = some 0) :
    ∀ (cnt : ℕ) (xv : ℤ) (n : ℕ), 0 ≤ xv → xv + cnt ≤ (V : ℤ) → n + cnt * U ≤ L →
      fill_v grid idims d u v xd U cnt xv n (List.replicate L ((0 : ℕ), false)) =
        some (List.replicate L ((0 : ℕ), false), n + cnt * U) := by
  intro cnt
  induction cnt with
  | zero => intro xv n _ _ _; simp [fill_v]
  | succ cnt ih =>
    intro xv n hxv0 hxv hn
    have hexp : (cnt + 1) * U = cnt * U + U := by ring
    rw [fill_v]
    rw [fill_u_zero grid idims d u v xd xv L U
      (fun xu h1 h2 => hsamp xu xv h1 h2 hxv0 (by push_cast at hxv ⊢; omega))
      U 0 n (by omega) (by omega) (by omega)]
    simp only [Option.bind_eq_bind, Option.some_bind]
    rw [ih (xv + 1) (n + U) (by omega) (by push_cast at hxv ⊢; omega) (by omega)]
    rw [show n + U + cnt * U = n + (cnt + 1) * U by ring_nf]

theorem merge_row_zero (dims : D3) (d u v : ℕ) (xd1 : ℤ) (j : ℕ) (L : ℕ)
    (vs : List Vertex) (is : List ℕ) :
    ∀ (fuel i n : ℕ), dims.y ≤ i + fuel → n + (dims.y - i) ≤ L →
      merge_row dims d u v xd1 j fuel i n (List.replicate L ((0 : ℕ), false)) vs is =
        some (n + (dims.y - i), List.replicate L ((0 : ℕ), false), vs, is) := by
  intro fuel
  induction fuel with
  | zero =>
    intro i n h1 h2
    rw [merge_row]
    simp [show dims.y - i = 0 by omega]
  | succ fuel ih =>
    intro i n h1 h2
    by_cases hi : i < dims.y
    · rw [merge_row, if_pos hi]
      rw [get?_replicate ((0 : ℕ), false) L n (by omega)]
      simp only [reduceIte]
      rw [ih (i + 1) (n + 1) (by omega) (by omega)]
      simp only [Option.some.injEq, Prod.mk.injEq, List.replicate, and_true, true_and]
      omega
    · rw [merge_row, if_neg hi]
      simp [show dims.y - i = 0 by omega]

theorem merge_cols_zero (dims : D3) (d u v : ℕ) (xd1 : ℤ) (L : ℕ)
    (vs : List Vertex) (is : List ℕ) :
    ∀ (cnt j n : ℕ), n + cnt * dims.y ≤ L →
      merge_cols dims d u v xd1 cnt j n (List.replicate L ((0 : ℕ), false)) vs is =
        some (n + cnt * dims.y, List.replicate L ((0 : ℕ), false), vs, is) := by
  intro cnt
  induction cnt with
  | zero => intro j n h; rw [merge_cols]; simp
  | succ cnt ih =>
    intro j n h
    have hexp : (cnt + 1) * dims.y = cnt * dims.y + dims.y := by ring
    rw [merge_cols]
    rw [merge_row_zero dims d u v xd1 j L vs is dims.y 0 n (by omega) (by omega)]
    simp only [Option.bind_eq_bind, Option.some_bind, Nat.sub_zero]
    rw [ih (j + 1) (n + dims.y) (by omega)]
    simp only [Option.some.injEq, Prod.mk.injEq, and_true, true_and]
    omega

theorem block_current_zero_mk (dims : D3) (a b c : ℤ)
    (ha : a < (dims.x : ℤ)) (hb : b < (dims.y : ℤ)) (hc : c < (dims.z : ℤ)) :
    block_current (List.replicate (dims.x * dims.y * dims.z) 0) dims.as_ivec3
      ⟨a, b, c⟩ = some 0 :=
  block_current_zero dims ⟨a, b, c⟩ ha hb hc

theorem block_compare_zero_mk (dims : D3) (a b c : ℤ)
    (ha0 : 0 ≤ a) (ha : a ≤ (dims.x : ℤ)) (hb0 : 0 ≤ b) (hb : b ≤ (dims.y : ℤ))
    (hc0 : 0 ≤ c) (hc : c ≤ (dims.z : ℤ)) :
    block_compare (List.replicate (dims.x * dims.y * dims.z) 0) dims.as_ivec3
      ⟨a, b, c⟩ = some 0 :=
  block_compare_zero dims ⟨a, b, c⟩ ha0 ha hb0 hb hc0 hc

theorem zero_grid_samples (dims : D3) (d u v : ℕ)
    (hperm : (d, u, v) = (0, 1, 2) ∨ (d, u, v) = (1, 2, 0) ∨ (d, u, v) = (2, 0, 1))
    (xd : ℤ) (hxd0 : -1 ≤ xd) (hxd : xd < (dims.get d : ℤ)) :
    ∀ xu xv : ℤ, 0 ≤ xu → xu < (dims.get u : ℤ) → 0 ≤ xv → xv < (dims.get v : ℤ) →
      block_current (List.replicate (dims.x * dims.y * dims.z) 0) dims.as_ivec3
        (((V3.zero.set d xd).set u xu).set v xv) = some 0 ∧
      block_compare (List.replicate (dims.x * dims.y * dims.z) 0) dims.as_ivec3
        ((((V3.zero.set d xd).set u xu).set v xv).set d
          ((((V3.zero.set d xd).set u xu).set v xv).get d + 1)) = some 0 := by
  rcases hperm with h | h | h <;>
    (simp only [Prod.mk.injEq] at h; obtain ⟨rfl, rfl, rfl⟩ := h) <;>
    intro xu xv h1 h2 h3 h4 <;>
    norm_num [D3.get] at hxd h2 h4 <;> constructor
  · exact block_current_zero_mk dims xd xu xv hxd h2 h4
  · exact block_compare_zero_mk dims (xd + 1) xu xv (by omega) (by omega)
      (by omega) (by omega) (by omega) (by omega)
  · exact block_current_zero_mk dims xv xd xu h4 hxd h2
  · exact block_compare_zero_mk dims xv (xd + 1) xu (by omega) (by omega)
      (by omega) (by omega) (by omega) (by omega)
  · exact block_current_zero_mk dims xu xv xd h2 h4 hxd
  · exact block_compare_zero_mk dims xu xv (xd + 1) (by omega) (by omega)
      (by omega) (by omega) (by omega) (by omega)

theorem le_mul_of_pos (a bc : ℕ) (h : 0 < a) : bc ≤ a * bc := by
  calc bc = 1 * bc := (one_mul bc).symm
    _ ≤ a * bc := Nat.mul_le_mul_right bc (by omega)

theorem slice_d_zero (dims : D3) (d u v : ℕ)
    (hperm : (d, u, v) = (0, 1, 2) ∨ (d, u, v) = (1, 2, 0) ∨ (d, u, v) = (2, 0, 1))
    (hx : 0 < dims.x) (hy : 0 < dims.y) (hz : 0 < dims.z)
    (vs : List Vertex) (is : List ℕ) :
    ∀ (rem : ℕ) (xd : ℤ), -1 ≤ xd → xd + rem = (dims.get d : ℤ) →
      slice_d (List.replicate (dims.x * dims.y * dims.z) 0) dims d u v rem xd
        (List.replicate (dims.x * dims.y * dims.z) ((0 : ℕ), false)) vs is =
      some (List.replicate (dims.x * dims.y * dims.z) ((0 : ℕ), false), vs, is) := by
  have hUV : dims.get v * dims.get u ≤ dims.x * dims.y * dims.z := by
    rcases hperm with h | h | h <;>
      (simp only [Prod.mk.injEq] at h; obtain ⟨rfl, rfl, rfl⟩ := h) <;>
      norm_num [D3.get]
    · have h1 := le_mul_of_pos dims.x (dims.y * dims.z) hx
      have h2 : dims.z * dims.y = dims.y * dims.z := Nat.mul_comm _ _
      have h3 : dims.x * (dims.y * dims.z) = dims.x * dims.y * dims.z := by ring
      omega
    · have h1 := le_mul_of_pos dims.y (dims.x * dims.z) hy
      have h3 : dims.y * (dims.x * dims.z) = dims.x * dims.y * dims.z := by ring
      omega
    · have h1 := le_mul_of_pos dims.z (dims.y * dims.x) hz
      have h3 : dims.z * (dims.y * dims.x) = dims.x * dims.y * dims.z := by ring
      omega
  have hXY : dims.x * dims.y ≤ dims.x * dims.y * dims.z := by
    have h1 := le_mul_of_pos dims.z (dims.x * dims.y) hz
    have h3 : dims.z * (dims.x * dims.y) = dims.x * dims.y * dims.z := by ring
    omega
  intro rem
  induction rem with
  | zero => intro xd h0 hsum; rw [slice_d]
  | succ rem ih =>
    intro xd h0 hsum
    simp only [slice_d]
    rw [fill_v_zero (List.replicate (dims.x * dims.y * dims.z) 0) dims.as_ivec3
      d u v xd (dims.x * dims.y * dims.z) (dims.get u) (dims.get v)
      (zero_grid_samples dims d u v hperm xd h0 (by push_cast at hsum ⊢; omega))
      (dims.get v) 0 0 (by omega) (by omega) (by omega)]
    simp only [Option.bind_eq_bind, Option.some_bind]
    rw [merge_cols_zero dims d u v (xd + 1) (dims.x * dims.y * dims.z) vs is
      dims.x 0 0 (by omega)]
    simp only [Option.some_bind]
    exact ih (xd + 1) (by omega) (by push_cast at hsum ⊢; omega)

theorem axis_sweep_zero (dims : D3) (d u v : ℕ)
    (hperm : (d, u, v) = (0, 1, 2) ∨ (d, u, v) = (1, 2, 0) ∨ (d, u, v) = (2, 0, 1))
    (hx : 0 < dims.x) (hy : 0 < dims.y) (hz : 0 < dims.z)
    (vs : List Vertex) (is : List ℕ) :
    axis_sweep (List.replicate (dims.x * dims.y * dims.z) 0) dims d u v vs is =
      some (vs, is) := by
  simp only [axis_sweep]
  rw [slice_d_zero dims d u v hperm hx hy hz vs is (dims.get d + 1) (-1)
    (by omega) (by push_cast; omega)]
  simp

/-- C8: meshing an all-zero (all-empty) grid of any positive dimensions
signals no error and appends nothing: the result is `some` with both output
buffers left empty. -/
theorem all_zero_grid_empty_output (dims : D3)
    (hx : 0 < dims.x) (hy : 0 < dims.y) (hz : 0 < dims.z) :
    greedy_mesh (List.replicate (dims.x * dims.y * dims.z) 0) dims [] [] =
      some ([], []) := by
  unfold greedy_mesh
  rw [if_pos (by simp)]
  rw [axis_sweep_zero dims 0 1 2 (by norm_num) hx hy hz [] []]
  simp only [Option.bind_eq_bind, Option.some_bind]
  rw [axis_sweep_zero dims 1 2 0 (by norm_num) hx hy hz [] []]
  simp only [Option.some_bind]
  rw [axis_sweep_zero dims 2 0 1 (by norm_num) hx hy hz [] []]

/-- C8 witness: the all-zero `2×3×4` grid yields empty buffers. -/
theorem all_zero_grid_empty_output_witness :
    greedy_mesh (List.replicate 24 0) ⟨2, 3, 4⟩ [] [] = some ([], []) :=
  all_zero_grid_empty_output ⟨2, 3, 4⟩ (by decide) (by decide) (by decide)
